import Mathlib

/-!
Shallow embedding of the NUMA node discovery / memory-policy binding
subsystem of stress-ng (core-numa.c).  C `unsigned long int` values are
modelled as `Nat` with explicit reduction modulo `2^64` at the points
where the C code performs an unsigned conversion; `long int` / `int`
intermediates are modelled as `Int` with explicit wrap-around conversion
helpers.  File I/O (`fopen`/`fgets` on /proc/self/status) is modelled by
passing the file's lines as an explicit argument together with a flag
saying whether the `fopen` succeeded.  Heap allocation (`malloc`,
`calloc`, `strdup`) is modelled by explicit success flags where a claim
depends on the failure path, and as succeeding otherwise.
-/

set_option maxRecDepth 8000

namespace StressNuma

/-- Word width of a C `unsigned long int` on the modelled (LP64) platform. -/
def LONG_BITS : Nat := 64

/-- Value of `ULONG_MAX` on the modelled platform. -/
def ULONG_MAX : Nat := 2 ^ 64 - 1

/-- Conversion of a C `long int` value (modelled exactly as `Int`) to
`unsigned long int`: reduction modulo `2^64`. -/
def toULong (i : Int) : Nat := (i % (2 ^ 64 : Int)).toNat

/-- Conversion of a C `unsigned long int` to `long int`
(two\x27s-complement wrap-around, as on all modelled platforms). -/
def toLong (u : Nat) : Int :=
  if u % 2 ^ 64 < 2 ^ 63 then ((u % 2 ^ 64 : Nat) : Int)
  else ((u % 2 ^ 64 : Nat) : Int) - 2 ^ 64

/-- Conversion of a C `unsigned long int` to `int`
(two\x27s-complement wrap-around, 32-bit `int`). -/
def toCInt (u : Nat) : Int :=
  if u % 2 ^ 32 < 2 ^ 31 then ((u % 2 ^ 32 : Nat) : Int)
  else ((u % 2 ^ 32 : Nat) : Int) - 2 ^ 32

/-- Characters accepted by the C `isspace` classification used by
`sscanf` when it skips leading white space. -/
def isSpaceC (c : Char) : Bool :=
  c = ' ' ∨ c = '\t' ∨ c = '\n' ∨ c = '\x0b' ∨ c = '\x0c' ∨ c = '\r'

/-- Value of a single hexadecimal digit character, `none` when the
character is not a hexadecimal digit. -/
def hexDigitVal (c : Char) : Option Nat :=
  if '0' ≤ c ∧ c ≤ '9' then some (c.toNat - '0'.toNat)
  else if 'a' ≤ c ∧ c ≤ 'f' then some (c.toNat - 'a'.toNat + 10)
  else if 'A' ≤ c ∧ c ≤ 'F' then some (c.toNat - 'A'.toNat + 10)
  else none

/-- Model of `sscanf(ptr, "%1x", &val)` applied to the C string whose
characters are `cs`: leading white space is skipped (without counting
towards the field width), then exactly one hexadecimal digit is read;
the result is `none` on a matching failure (`sscanf` result `≠ 1`). -/
def sscanf1x (cs : List Char) : Option Nat :=
  match cs.dropWhile (fun c => isSpaceC c) with
  | [] => none
  | c :: _ => hexDigitVal c

/-- Body of the `for (i = 0; i < 4; i++)` loop of
`stress_numa_count_mem_nodes`: for each of the 4 bits of the hex digit
`val`, a set bit increments `n`, `node_id` is incremented, and
`*max_node` is raised to `node_id` when below it. -/
def hexBits (val : Nat) (n : Int) (node_id max_node : Nat) :
    Int × Nat × Nat :=
  [0, 1, 2, 3].foldl
    (fun acc i =>
      let n := if val.testBit i then acc.1 + 1 else acc.1
      let node_id := acc.2.1 + 1
      let max_node := if acc.2.2 < node_id then node_id else acc.2.2
      (n, node_id, max_node))
    (n, node_id, max_node)

/-- Backward scanning loop of `stress_numa_count_mem_nodes`
(`while ((*ptr != ' ') && (ptr > str)) { ... ptr--; }`).

`rest` is the character list starting at `str = buffer + 13` (the text
following the `Mems_allowed:` label) and `pos` is the current offset of
`ptr` from `str`; `pos = 0` corresponds to `ptr = str`, where the loop
stops without examining the character.  Commas are skipped, any other
character is fed to `sscanf(ptr, "%1x", &val)` (which sees the rest of
the string from `ptr` onwards), a matching failure makes the function
return `-1`, and each scanned digit accounts for 4 node bits. -/
def scanLoop (rest : List Char) : Nat → Int → Nat → Nat → Int × Nat
  | 0, n, _, max_node => (n, max_node)
  | pos + 1, n, node_id, max_node =>
    let c := rest.getD (pos + 1) ' '
    if c = ' ' then (n, max_node)
    else if c = ',' then scanLoop rest pos n node_id max_node
    else
      match sscanf1x (rest.drop (pos + 1)) with
      | none => (-1, max_node)
      | some val =>
        let r := hexBits val n node_id max_node
        scanLoop rest pos r.1 r.2.1 r.2.2

/-- Characters of the `Mems_allowed:` label searched for by
`strncmp(buffer, "Mems_allowed:", 13)`. -/
def memsLabel : List Char := "Mems_allowed:".data

/-- Model of `stress_numa_count_mem_nodes(&max_node)`.

`fopenOk` tells whether `fopen("/proc/self/status", "r")` succeeds and
`fileLines` are the lines delivered by `fgets` (each at most 8191
characters, the `fgets` buffer being `char buffer[8192]`; the trailing
newline is part of the line, as `fgets` keeps it).  The result is the
pair (return value, `*max_node`), both C `unsigned long int`; the
`return -1` statements of the failure paths convert `-1` to
`ULONG_MAX` because the declared return type is unsigned. -/
def stress_numa_count_mem_nodes (fopenOk : Bool)
    (fileLines : List (List Char)) : Nat × Nat :=
  if fopenOk then
    match fileLines.find? (fun l => memsLabel.isPrefixOf l) with
    | none => (toULong (-1), 0)
    | some buffer =>
      let rest := buffer.drop 13
      let r := scanLoop rest (rest.length - 2) 0 0 0
      (toULong r.1, r.2)
  else (toULong (-1), 0)

/-- Modelled from the spec: the `stress_numa_mask_t` structure is declared
in `core-numa.h`, which is not among the shown sources; §3 of the design
describes its attributes: `node_count` (signed count, `-1` on discovery
failure), `max_nodes` (exclusive upper bound on node index),
`word_count`, `byte_size`, and the owned zero-initialized bit buffer.
The bit buffer (an array of `unsigned long int` words, bit `i` of the
buffer being bit `i % 64` of word `i / 64`) is modelled as the single
natural number whose binary digit `i` is bit `i` of the buffer. -/
structure stress_numa_mask_t where
  nodes : Int
  max_nodes : Nat
  numa_elements : Nat
  mask_size : Nat
  mask : Nat
  deriving DecidableEq

/-- Word width macro `NUMA_LONG_BITS` from `core-numa.h` (not among the
shown sources); it is the bit width of an `unsigned long int`, left as a
parameter `numaLongBits` in the allocator model below and instantiated
with `LONG_BITS = 64` in concrete computations. -/
def NUMA_LONG_BITS : Nat := LONG_BITS

/-- Constant `BITS_PER_BYTE` from the headers (not among the shown
sources). -/
def BITS_PER_BYTE : Nat := 8

/-- Model of `stress_numa_mask_alloc()`.

`numaLongBits` is the value of the `NUMA_LONG_BITS` macro; `mallocOk`
and `callocOk` tell whether the `malloc` of the structure and the
`calloc` of the bit buffer succeed.  Discovery runs
`stress_numa_count_mem_nodes` on the modelled /proc/self/status
(`fopenOk`, `fileLines`); its unsigned result is stored in the signed
`nodes` field.  `none` models the `NULL` returns. -/
def stress_numa_mask_alloc (numaLongBits : Nat) (fopenOk : Bool)
    (fileLines : List (List Char)) (mallocOk callocOk : Bool) :
    Option stress_numa_mask_t :=
  if mallocOk then
    let r := stress_numa_count_mem_nodes fopenOk fileLines
    let nodes := toLong r.1
    let max_nodes := r.2
    if nodes < 1 ∨ max_nodes < 1 then none
    else
      let numa_elements := (max_nodes + numaLongBits - 1) / numaLongBits
      let numa_elements := if numa_elements = 0 then 1 else numa_elements
      let mask_size := numaLongBits * numa_elements / BITS_PER_BYTE
      if callocOk then
        some ⟨nodes, max_nodes, numa_elements, mask_size, 0⟩
      else none
  else none

/-- Model of `stress_numa_mask_free`: frees the buffer and the structure;
a `none` (NULL) argument is a no-op.  Memory release itself has no
observable effect in the embedding. -/
def stress_numa_mask_free (numa_mask : Option stress_numa_mask_t) : Unit :=
  match numa_mask with
  | none => ()
  | some _ => ()

/-- Modelled from the spec: macro `STRESS_SETBIT(mask, i)` (§9
raw bit-buffer mask with set/clear/test operations; the macro itself is
in a header not among the shown sources): sets bit `i` of the bit
buffer. -/
def STRESS_SETBIT (mask : Nat) (i : Nat) : Nat := mask ||| 1 <<< i

/-- Modelled from the spec: macro `STRESS_CLRBIT(mask, i)` (§9): clears
bit `i` of the bit buffer. -/
def STRESS_CLRBIT (mask : Nat) (i : Nat) : Nat :=
  if mask.testBit i then mask - 1 <<< i else mask

/-- Modelled from the spec: `stress_mwc32modn(n)` (§6: a fast
non-cryptographic uniform integer generator bounded by an arbitrary
modulus; its implementation is not among the shown sources).  `rnd` is
the raw pseudo-random 32-bit draw of this invocation. -/
def stress_mwc32modn (rnd : Nat) (n : Nat) : Nat := rnd % n

/-- Loop of `stress_numa_randomize_pages`:
`for (ptr = buffer; ptr < ptr_end; ptr += page_size)`, with `ptr`
represented by its byte offset `off` from `buffer` and `ptr_end` by
`buffer_size`.  Each iteration draws `node`, sets its bit, issues the
`shim_mbind` call (recorded as the pair `(node, mask at call time)`;
its result is discarded by the C code) and clears the bit again.
`fuel` bounds the recursion; the caller passes `buffer_size + 1`, which
exceeds the iteration count whenever `0 < page_size` since `off` grows
by `page_size` per iteration. -/
def randomizeLoop (nodes32 : Nat) (seq : Nat → Nat)
    (page_size buffer_size : Nat) :
    Nat → Nat → Nat → Nat → Nat × List (Nat × Nat)
  | 0, _, _, mask => (mask, [])
  | fuel + 1, off, i, mask =>
    if off < buffer_size then
      let node := stress_mwc32modn (seq i) nodes32
      let m1 := STRESS_SETBIT mask node
      let r := randomizeLoop nodes32 seq page_size buffer_size fuel
        (off + page_size) (i + 1) (STRESS_CLRBIT m1 node)
      (r.1, (node, m1) :: r.2)
    else (mask, [])

/-- Model of `stress_numa_randomize_pages(numa_mask, buffer, page_size,
buffer_size)` (the full `__NR_mbind` build).

`seq j` is the raw 32-bit draw of the `j`-th `stress_mwc32modn` call.
The buffer start address is taken as offset 0.  First the whole mask
buffer is cleared with `shim_memset`, then one `shim_mbind` per page is
issued.  The result is the structure after the call together with the
list of issued `shim_mbind` calls as `(node, mask at call time)`. -/
def stress_numa_randomize_pages (numa_mask : stress_numa_mask_t)
    (seq : Nat → Nat) (page_size buffer_size : Nat) :
    stress_numa_mask_t × List (Nat × Nat) :=
  let nodes32 := (numa_mask.nodes % (2 ^ 32 : Int)).toNat
  let r := randomizeLoop nodes32 seq page_size buffer_size
    (buffer_size + 1) 0 0 0
  ({ numa_mask with mask := r.1 }, r.2)

/-- Model of `stress_numa_nodes()` (the full build).

The `static int nodes = -1` cache is modelled by explicit state passing:
`cached` is the value of the static variable on entry and the second
component of the result is its value on return.  The unsigned result of
`stress_numa_count_mem_nodes` is converted to `int` on assignment. -/
def stress_numa_nodes (cached : Int) (fopenOk : Bool)
    (fileLines : List (List Char)) : Int × Int :=
  if cached = -1 then
    let nodes := toCInt (stress_numa_count_mem_nodes fopenOk fileLines).1
    let nodes := if nodes < 1 then 1 else nodes
    (nodes, nodes)
  else (cached, cached)

/-- Model of the `#else` fallback `stress_numa_nodes()` (platform without
the mempolicy syscalls): returns 1. -/
def stress_numa_nodes_fallback : Int := 1

/-- The module-level string `static const char option[] = "option --mbind"`. -/
def optionName : String := "option --mbind"

/-- Model of `stress_check_numa_range(max_node, node)`: `none` when the
check passes, `some msg` when the process is terminated with
`_exit(EXIT_FAILURE)` after printing `msg` on `stderr`. -/
def stress_check_numa_range (max_node node : Nat) : Option String :=
  if node ≥ max_node then
    if max_node > 1 then
      some (optionName ++ ": invalid range, " ++ toString node ++
        " is not allowed, allowed range: 0 to " ++
        toString (max_node - 1) ++ "\n")
    else
      some (optionName ++ ": invalid range, " ++ toString node ++
        " is not allowed, allowed range: 0\n")
  else none

/-- Model of `sscanf(str, "%lu", &val)` on the C string `cs`: skip
leading white space, accept an optional sign, then require at least one
decimal digit; the converted value saturates at `ULONG_MAX` on overflow
(`strtoul` semantics) and a leading minus sign negates it in the
unsigned return type.  `none` is a matching failure (`sscanf`
result `≠ 1`). -/
def scanNodeValue (cs : List Char) : Option Nat :=
  let cs := cs.dropWhile (fun c => isSpaceC c)
  let sn : Bool × List Char :=
    match cs with
    | '-' :: rest => (true, rest)
    | '+' :: rest => (false, rest)
    | _ => (false, cs)
  let ds := sn.2.takeWhile (fun c => c.isDigit)
  if ds = [] then none
  else
    let v := ds.foldl (fun a c => a * 10 + (c.toNat - '0'.toNat)) 0
    let v := if v > ULONG_MAX then ULONG_MAX else v
    some (if sn.1 then (2 ^ 64 - v) % 2 ^ 64 else v)

/-- Model of `stress_parse_node(str)`: parses a decimal node number from
`str`, or terminates the process (`.error msg`) on an invalid number. -/
def stress_parse_node (str : List Char) : Except String Nat :=
  match scanNodeValue str with
  | none =>
    .error (optionName ++ ": invalid number \x27" ++ String.mk str ++
      "\x27\n")
  | some val => .ok val

/-- Model of `strstr(token, "-")` followed by `tmpptr++`: the characters
after the first `\x27-\x27` of the token, `none` when the token has no
`\x27-\x27`. -/
def afterFirstDash : List Char → Option (List Char)
  | [] => none
  | c :: cs => if c = '-' then some cs else afterFirstDash cs

/-- Per-token validation of the `stress_set_mbind` loop body (everything
before the `for (i = lo; i <= hi; i++)` binding loop): parses `lo` (and
`hi` when the token contains a `\x27-\x27`), rejects a dangling hyphen,
rejects `hi ≤ lo`, and applies `stress_check_numa_range` to `lo` and
`hi`.  `.error msg` models `_exit(EXIT_FAILURE)` after printing
`msg`. -/
def stress_set_mbind_token (max_node : Nat) (token : List Char) :
    Except String (Nat × Nat) :=
  match stress_parse_node token with
  | .error e => .error e
  | .ok lo =>
    let hiRes : Except String Nat :=
      match afterFirstDash token with
      | none => .ok lo
      | some rest =>
        if rest = [] then
          .error (optionName ++ ": expecting number following \x27-\x27 in \x27"
            ++ String.mk token ++ "\x27\n")
        else
          match stress_parse_node rest with
          | .error e => .error e
          | .ok hi =>
            if hi ≤ lo then
              .error (optionName ++ ": invalid range in \x27" ++
                String.mk token ++
                "\x27 (end value must be larger than start value\n")
            else .ok hi
    match hiRes with
    | .error e => .error e
    | .ok hi =>
      match stress_check_numa_range max_node lo with
      | some e => .error e
      | none =>
        match stress_check_numa_range max_node hi with
        | some e => .error e
        | none => .ok (lo, hi)

/-- Outcome of `stress_set_mbind`: either the function returns 0
(`warned` tells whether the "no NUMA nodes found" message was printed)
or the process is terminated by `_exit(EXIT_FAILURE)` after printing
`msg`.  `calls` records, in order, the nodemask passed to each
`shim_set_mempolicy(MPOL_BIND, nodemask, max_node)` call issued before
returning or exiting. -/
inductive SetMbindResult where
  | success (warned : Bool) (calls : List Nat)
  | exited (msg : String) (calls : List Nat)
  deriving DecidableEq

/-- Binding loop `for (i = lo; i <= hi; i++)` of `stress_set_mbind`:
sets bit `i` of the nodemask and issues a `shim_set_mempolicy` call with
the nodemask as currently populated.  `count` is the number of remaining
iterations (`hi + 1 - lo` at entry); the syscall is modelled as
succeeding.  Returns the final nodemask and the masks passed to the
issued calls. -/
def bindRange (nodemask : Nat) (lo : Nat) : Nat → Nat × List Nat
  | 0 => (nodemask, [])
  | count + 1 =>
    let m := STRESS_SETBIT nodemask lo
    let r := bindRange m (lo + 1) count
    (r.1, m :: r.2)

/-- Token loop of `stress_set_mbind`
(`for (ptr = str; (token = strtok(ptr, ",")) != NULL; ptr = NULL)`):
processes each token, accumulating the nodemask (never cleared between
tokens) and the list of issued `shim_set_mempolicy` calls. -/
def stress_set_mbind_loop (max_node : Nat) :
    List (List Char) → Nat → List Nat → SetMbindResult
  | [], _, calls => .success false calls
  | token :: toks, nodemask, calls =>
    match stress_set_mbind_token max_node token with
    | .error e => .exited e calls
    | .ok lohi =>
      let r := bindRange nodemask lohi.1 (lohi.2 + 1 - lohi.1)
      stress_set_mbind_loop max_node toks r.1 (calls ++ r.2)

/-- Worker for the `strtok(ptr, ",")` model: `acc` holds the characters
of the token currently being read, in reverse order. -/
def strtokComma : List Char → List Char → List (List Char)
  | [], acc => if acc = [] then [] else [acc.reverse]
  | c :: cs, acc =>
    if c = ',' then
      if acc = [] then strtokComma cs []
      else acc.reverse :: strtokComma cs []
    else strtokComma cs (c :: acc)

/-- Model of `strtok(str, ",")` iteration: the maximal non-empty runs of
non-comma characters of `arg`, in order (`strtok` never yields an empty
token). -/
def tokenizeMbind (arg : String) : List (List Char) :=
  strtokComma arg.data []

/-- Model of `stress_set_mbind(arg)` (the full `__NR_set_mempolicy`
build).

Discovery reads the modelled /proc/self/status (`fopenOk`,
`fileLines`).  The guard `stress_numa_count_mem_nodes(&max_node) < 1`
compares the unsigned return value, so only a result of 0 takes the
warning branch.  The `calloc` of the working nodemask and the
`stress_const_optdup` of the argument are modelled as succeeding (their
failure paths terminate the process before any token is processed), and
`calloc` zero-fills the nodemask. -/
def stress_set_mbind (fopenOk : Bool) (fileLines : List (List Char))
    (arg : String) : SetMbindResult :=
  let r := stress_numa_count_mem_nodes fopenOk fileLines
  if r.1 < 1 then .success true []
  else stress_set_mbind_loop r.2 (tokenizeMbind arg) 0 []

/-- Model of the `#else` fallback `stress_set_mbind(arg)`: always
terminates the process with the "not supported" message. -/
def stress_set_mbind_fallback (_arg : String) : SetMbindResult :=
  .exited (optionName ++ ": setting NUMA memory policy binding not supported\n")
    []

/-! ### Scanner characterization (claims C3, C9) -/

/-- Characters examined by the backward scan when `ptr` starts at offset
`pos` from `str`: offsets `pos` down to `1`, in scan order. -/
def regionAt (rest : List Char) (pos : Nat) : List Char :=
  ((rest.take (pos + 1)).drop 1).reverse

/-- Characters examined by the full backward scan, which starts at
offset `strlen - 2` from the string end: offsets `rest.length - 2` down
to `1`, in scan order (the trailing newline and the character at `str`
itself are never examined). -/
def regionOf (rest : List Char) : List Char :=
  ((rest.take (rest.length - 1)).drop 1).reverse

/-- Number of set bits among the low 4 bits of a hex digit value. -/
def nibbleCount (v : Nat) : Nat :=
  (if v.testBit 0 then 1 else 0) + (if v.testBit 1 then 1 else 0) +
  (if v.testBit 2 then 1 else 0) + (if v.testBit 3 then 1 else 0)

/-- Hex digits scanned before the terminating space (comma separators
skipped). -/
def digitsIn (cs : List Char) : List Char :=
  (cs.takeWhile (fun c => c ≠ ' ')).filter (fun c => c ≠ ',')

/-- Total number of set bits of a list of scanned hex digits. -/
def popSum (ds : List Char) : Nat :=
  (ds.map (fun c => nibbleCount ((hexDigitVal c).getD 0))).sum


/-! ### Cumulative static binding (claim C2) -/

/-- Node indices of a validated token `(lo, hi)` in ascending traversal
order (`for (i = lo; i <= hi; i++)`). -/
def rangeIndices (lohi : Nat × Nat) : List Nat :=
  List.range' lohi.1 (lohi.2 + 1 - lohi.1)

/-- All node indices of a specification, in left-to-right traversal
order (a token that fails validation contributes nothing; in a
well-formed specification every token validates). -/
def specIndices (max_node : Nat) (toks : List (List Char)) : List Nat :=
  toks.flatMap (fun t =>
    match stress_set_mbind_token max_node t with
    | .ok lohi => rangeIndices lohi
    | .error _ => [])

/-- Nodemask after setting the bits of all listed indices in order. -/
def setAll (nodemask : Nat) (is : List Nat) : Nat :=
  is.foldl STRESS_SETBIT nodemask

/-- Masks passed to the successive `set_mempolicy` calls when the listed
indices are set one by one into `nodemask`, which is never cleared in
between. -/
def cumCalls (nodemask : Nat) : List Nat → List Nat
  | [] => []
  | i :: is =>
    STRESS_SETBIT nodemask i :: cumCalls (STRESS_SETBIT nodemask i) is


/-! ### Helper lemmas -/

theorem STRESS_SETBIT_zero (i : Nat) : STRESS_SETBIT 0 i = 2 ^ i := by
  simp [STRESS_SETBIT, Nat.one_shiftLeft]

theorem STRESS_CLRBIT_of_SETBIT_zero (i : Nat) :
    STRESS_CLRBIT (STRESS_SETBIT 0 i) i = 0 := by
  simp [STRESS_SETBIT_zero, STRESS_CLRBIT, Nat.testBit_two_pow_self,
    Nat.one_shiftLeft]

/-- Characterization of the `randomizeLoop` calls when the mask is clear
at loop entry: with `n` remaining pages and enough fuel, the mask is
clear again at every loop head and on return, and the `j`-th remaining
call binds node `stress_mwc32modn (seq j) nodes32` with exactly that
bit set. -/
theorem randomizeLoop_calls (nodes32 : Nat) (seq : Nat → Nat)
    (page_size buffer_size : Nat) (hp : 0 < page_size) :
    ∀ (n fuel off i : Nat), buffer_size = off + n * page_size → n ≤ fuel →
      randomizeLoop nodes32 seq page_size buffer_size fuel off i 0 =
        (0, (List.range' i n).map fun j =>
          (stress_mwc32modn (seq j) nodes32,
            STRESS_SETBIT 0 (stress_mwc32modn (seq j) nodes32))) := by
  intro n
  induction n with
  | zero =>
    intro fuel off i hb hf
    subst hb
    cases fuel <;> simp [randomizeLoop]
  | succ n ih =>
    intro fuel off i hb hf
    cases fuel with
    | zero => exact absurd hf (by omega)
    | succ fuel =>
      have hb2 : buffer_size = off + (n * page_size + page_size) := by
        rw [hb, Nat.succ_mul]
      have hoff : off < buffer_size := by omega
      have hrec := ih fuel (off + page_size) (i + 1) (by omega) (by omega)
      simp only [randomizeLoop, if_pos hoff, STRESS_CLRBIT_of_SETBIT_zero,
        hrec, List.range'_succ, List.map_cons]

/-! ### Claim theorems -/

/-- C5: for every node index checked during static binding, the check
passes iff `0 ≤ value < max_node` (values are unsigned, so `0 ≤ value`
always holds); a requested node equal to `max_node` terminates the
process with a diagnostic stating the valid inclusive range
`0..max_node-1` (or just `0` when `max_node == 1`), while a requested
node equal to `max_node - 1` passes the check. -/
theorem check_numa_range_boundary_C5 (max_node node : Nat) :
    (stress_check_numa_range max_node node = none ↔ node < max_node) ∧
    (1 ≤ max_node → stress_check_numa_range max_node (max_node - 1) = none) ∧
    (1 < max_node → stress_check_numa_range max_node max_node =
      some (optionName ++ ": invalid range, " ++ toString max_node ++
        " is not allowed, allowed range: 0 to " ++
        toString (max_node - 1) ++ "\n")) ∧
    (max_node = 1 → stress_check_numa_range max_node max_node =
      some (optionName ++ ": invalid range, " ++ toString max_node ++
        " is not allowed, allowed range: 0\n")) := by
  refine ⟨⟨fun h => ?_, fun h => ?_⟩, fun h => ?_, fun h => ?_, fun h => ?_⟩
  · by_contra hn
    have hge : node ≥ max_node := by omega
    rw [stress_check_numa_range, if_pos hge] at h
    split at h <;> exact Option.noConfusion h
  · rw [stress_check_numa_range, if_neg (by omega)]
  · rw [stress_check_numa_range, if_neg (by omega)]
  · rw [stress_check_numa_range, if_pos (by omega), if_pos h]
  · subst h
    rw [stress_check_numa_range, if_pos (by omega), if_neg (by omega)]

/-- C5 witness: at `max_node = 4` the check rejects node 4 with the
range diagnostic and accepts node 3. -/
theorem check_numa_range_boundary_C5_witness :
    stress_check_numa_range 4 4 =
      some (optionName ++ ": invalid range, " ++ toString 4 ++
        " is not allowed, allowed range: 0 to " ++ toString (4 - 1) ++
        "\n") ∧
    stress_check_numa_range 4 3 = none :=
  ⟨(check_numa_range_boundary_C5 4 4).2.2.1 (by decide),
   (check_numa_range_boundary_C5 4 3).1.mpr (by decide)⟩

/-- C8: `stress_numa_nodes()` always returns a value `≥ 1`: if node
discovery fails or reports fewer than 1 node the result is clamped
to 1, and the result is cached in the `static int nodes` variable, so
every subsequent call returns the same value without recomputation
(here: whatever the status file contains on the later call); the
fallback build's `stress_numa_nodes()` also returns `≥ 1`. -/
theorem numa_nodes_clamped_and_cached_C8 (fopenOk : Bool)
    (fileLines : List (List Char)) :
    1 ≤ (stress_numa_nodes (-1) fopenOk fileLines).1 ∧
    (stress_numa_nodes (-1) fopenOk fileLines).2 =
      (stress_numa_nodes (-1) fopenOk fileLines).1 ∧
    (∀ (fopenOk2 : Bool) (fileLines2 : List (List Char)),
      stress_numa_nodes (stress_numa_nodes (-1) fopenOk fileLines).2
          fopenOk2 fileLines2 =
        ((stress_numa_nodes (-1) fopenOk fileLines).1,
         (stress_numa_nodes (-1) fopenOk fileLines).1)) ∧
    1 ≤ stress_numa_nodes_fallback := by
  have hunf : stress_numa_nodes (-1) fopenOk fileLines =
      (if toCInt (stress_numa_count_mem_nodes fopenOk fileLines).1 < 1 then 1
        else toCInt (stress_numa_count_mem_nodes fopenOk fileLines).1,
       if toCInt (stress_numa_count_mem_nodes fopenOk fileLines).1 < 1 then 1
        else toCInt (stress_numa_count_mem_nodes fopenOk fileLines).1) := by
    rw [stress_numa_nodes, if_pos rfl]
  have h1 : 1 ≤ (stress_numa_nodes (-1) fopenOk fileLines).1 := by
    rw [hunf]; dsimp only; split <;> omega
  refine ⟨h1, by rw [hunf], fun fopenOk2 fileLines2 => ?_, by decide⟩
  have hne : (stress_numa_nodes (-1) fopenOk fileLines).2 ≠ -1 := by
    rw [hunf] at h1 ⊢; dsimp only at h1 ⊢; split <;> omega
  rw [stress_numa_nodes, if_neg hne, hunf]

/-- C4: a `stress_numa_randomize_pages` call on a buffer of exactly `n`
pages (`buffer_size = n × page_size`) issues exactly `n` per-page
`shim_mbind` calls; the mask at the moment of the `k`-th call has
exactly one bit set, whose index is the `k`-th pseudo-random draw
reduced into `[0, node_count)`; and after the function returns every
bit of the mask is clear. -/
theorem randomize_pages_per_page_C4 (numa_mask : stress_numa_mask_t)
    (seq : Nat → Nat) (page_size buffer_size n : Nat)
    (hp : 0 < page_size) (hb : buffer_size = n * page_size)
    (h1 : 1 ≤ numa_mask.nodes) (h2 : numa_mask.nodes < 2 ^ 32) :
    (stress_numa_randomize_pages numa_mask seq page_size buffer_size).2.length
        = n ∧
    (∀ k (hk : k <
        (stress_numa_randomize_pages numa_mask seq
          page_size buffer_size).2.length),
      ((stress_numa_randomize_pages numa_mask seq
          page_size buffer_size).2.get ⟨k, hk⟩).1
        = stress_mwc32modn (seq k) numa_mask.nodes.toNat ∧
      ((stress_numa_randomize_pages numa_mask seq
          page_size buffer_size).2.get ⟨k, hk⟩).1 < numa_mask.nodes.toNat ∧
      (∀ b, (((stress_numa_randomize_pages numa_mask seq
          page_size buffer_size).2.get ⟨k, hk⟩).2).testBit b
        ↔ b = ((stress_numa_randomize_pages numa_mask seq
          page_size buffer_size).2.get ⟨k, hk⟩).1)) ∧
    (stress_numa_randomize_pages numa_mask seq page_size buffer_size).1.mask
        = 0 := by
  have hnodes : (numa_mask.nodes % (2 ^ 32 : Int)).toNat
      = numa_mask.nodes.toNat := by
    rw [Int.emod_eq_of_lt (by omega) (by omega)]
  have hfuel : n ≤ buffer_size + 1 := by
    have : n * 1 ≤ n * page_size := Nat.mul_le_mul_left n hp
    omega
  have hmain := randomizeLoop_calls ((numa_mask.nodes % (2 ^ 32 : Int)).toNat)
    seq page_size buffer_size hp n (buffer_size + 1) 0 0 (by omega) hfuel
  rw [hnodes] at hmain
  have hunf : stress_numa_randomize_pages numa_mask seq page_size buffer_size
      = ({ numa_mask with mask := 0 },
        (List.range' 0 n).map fun j =>
          (stress_mwc32modn (seq j) numa_mask.nodes.toNat,
            STRESS_SETBIT 0 (stress_mwc32modn (seq j) numa_mask.nodes.toNat)))
      := by
    simp only [stress_numa_randomize_pages, hnodes, hmain]
  rw [hunf]
  refine ⟨by simp, fun k hk => ?_, rfl⟩
  simp only [List.length_map, List.length_range'] at hk
  simp only [List.get_eq_getElem, List.getElem_map, List.getElem_range',
    Nat.zero_add, Nat.one_mul]
  refine ⟨by trivial, Nat.mod_lt _ (by omega), fun b => ?_⟩
  rw [STRESS_SETBIT_zero, Nat.testBit_two_pow]
  simp [eq_comm]

/-- C4 witness: a 3-page buffer (`page_size = 4`, `buffer_size = 12`)
on a 2-node mask yields exactly 3 bind calls and a cleared mask. -/
theorem randomize_pages_per_page_C4_witness :
    (stress_numa_randomize_pages ⟨2, 8, 1, 8, 0⟩ (fun j => j + 5)
        4 12).2.length = 3 ∧
    (stress_numa_randomize_pages ⟨2, 8, 1, 8, 0⟩ (fun j => j + 5)
        4 12).1.mask = 0 :=
  ⟨(randomize_pages_per_page_C4 ⟨2, 8, 1, 8, 0⟩ (fun j => j + 5) 4 12 3
      (by decide) (by decide) (by decide) (by decide)).1,
   (randomize_pages_per_page_C4 ⟨2, 8, 1, 8, 0⟩ (fun j => j + 5) 4 12 3
      (by decide) (by decide) (by decide) (by decide)).2.2⟩

/-- C1: evaluation of the claim "no NUMA nodes discoverable (discovery
fails or reports zero permitted nodes) → warning and return 0".  The
zero-permitted-nodes half holds: a counter result of 0 takes the warning
branch and returns 0 with no binding call.  The discovery-failure half
is a code bug: the counter's declared return type is unsigned, so its
`return -1` yields `2^64 - 1`, the guard `< 1` is false, the warning is
skipped, and (for example) arg "0" then terminates the process through
the range check instead of returning success. -/
theorem set_mbind_no_nodes_C1 (fopenOk : Bool)
    (fileLines : List (List Char)) (arg : String) :
    ((stress_numa_count_mem_nodes fopenOk fileLines).1 = 0 →
      stress_set_mbind fopenOk fileLines arg = .success true []) ∧
    stress_numa_count_mem_nodes false [] = (2 ^ 64 - 1, 0) ∧
    stress_set_mbind false [] "0" =
      .exited (optionName ++
        ": invalid range, 0 is not allowed, allowed range: 0\n") [] := by
  refine ⟨fun h => ?_, by decide, by decide⟩
  rw [stress_set_mbind, if_pos (by omega)]

/-- C1 witness: a status line with an all-zero mask (zero permitted
nodes) makes `stress_set_mbind` warn and return 0 with no calls. -/
theorem set_mbind_no_nodes_C1_witness :
    stress_set_mbind true [("Mems_allowed:\t0\n".data)] "2" =
      .success true [] :=
  (set_mbind_no_nodes_C1 true [("Mems_allowed:\t0\n".data)] "2").1 (by decide)

/-- C10: `stress_set_mbind` accepts duplicate and overlapping node
indices across tokens without error: setting an already-set bit leaves
the nodemask unchanged, yet every index of every token still triggers
its own `set_mempolicy` call (the call count of a range is its index
count, independent of the mask contents); for "2,1-3" four calls are
issued, with masks {2}, {1,2}, {1,2}, {1,2,3} — the third call's node
set does not grow relative to the second. -/
theorem set_mbind_duplicates_C10 :
    (∀ (mask i : Nat), mask.testBit i → STRESS_SETBIT mask i = mask) ∧
    (∀ (nodemask lo count : Nat),
      (bindRange nodemask lo count).2.length = count) ∧
    stress_set_mbind true [("Mems_allowed:\tff\n".data)] "2,1-3" =
      .success false [4, 6, 6, 14] := by
  refine ⟨fun mask i h => ?_, fun nodemask lo count => ?_, by decide⟩
  · rw [STRESS_SETBIT, Nat.one_shiftLeft]
    apply Nat.eq_of_testBit_eq
    intro j
    rw [Nat.testBit_lor, Nat.testBit_two_pow]
    by_cases hij : i = j
    · subst hij; simp [h]
    · simp [hij]
  · induction count generalizing nodemask lo with
    | zero => rfl
    | succ count ih => simp [bindRange, ih]

/-- C10 witness: setting the already-set bit 2 of mask {1,2} leaves it
unchanged, and the 3-index range still issues 3 calls from it. -/
theorem set_mbind_duplicates_C10_witness :
    STRESS_SETBIT 6 2 = 6 ∧ (bindRange 6 1 3).2.length = 3 :=
  ⟨set_mbind_duplicates_C10.1 6 2 (by decide),
   set_mbind_duplicates_C10.2.1 6 1 3⟩

/-- C6: every `--mbind` token that is a malformed number, a hyphen with
no trailing number, or a range `lo-hi` with `hi ≤ lo` makes the token
validation fail, and a failing token terminates the process with the
diagnostic while issuing no binding call for that token (the call list
stops at the calls of the earlier tokens); for "5-3" the diagnostic
states that the end value must be larger than the start value and no
binding call at all is issued. -/
theorem set_mbind_bad_token_C6 :
    (∀ (max_node : Nat) (token : List Char), scanNodeValue token = none →
      ∃ e, stress_set_mbind_token max_node token = .error e) ∧
    (∀ (max_node : Nat) (token : List Char), afterFirstDash token = some [] →
      ∃ e, stress_set_mbind_token max_node token = .error e) ∧
    (∀ (max_node : Nat) (token rest : List Char) (lo hi : Nat),
      afterFirstDash token = some rest → rest ≠ [] →
      scanNodeValue token = some lo → scanNodeValue rest = some hi →
      hi ≤ lo → ∃ e, stress_set_mbind_token max_node token = .error e) ∧
    (∀ (max_node : Nat) (token : List Char) (toks : List (List Char))
      (nodemask : Nat) (calls : List Nat) (e : String),
      stress_set_mbind_token max_node token = .error e →
      stress_set_mbind_loop max_node (token :: toks) nodemask calls =
        .exited e calls) ∧
    stress_set_mbind true [("Mems_allowed:\tff\n".data)] "5-3" =
      .exited (optionName ++
        ": invalid range in \x275-3\x27 (end value must be larger than start value\n")
        [] := by
  refine ⟨fun max_node token h => ?_, fun max_node token h => ?_,
    fun max_node token rest lo hi hd hne hlo hhi hle => ?_,
    fun max_node token toks nodemask calls e h => ?_, by decide⟩
  · exact ⟨_, by rw [stress_set_mbind_token, stress_parse_node, h]⟩
  · rcases hscan : scanNodeValue token with _ | lo
    · exact ⟨_, by rw [stress_set_mbind_token, stress_parse_node, hscan]⟩
    · refine ⟨optionName ++ ": expecting number following \x27-\x27 in \x27"
        ++ String.mk token ++ "\x27\n", ?_⟩
      simp [stress_set_mbind_token, stress_parse_node, hscan, h]
  · refine ⟨optionName ++ ": invalid range in \x27" ++ String.mk token ++
      "\x27 (end value must be larger than start value\n", ?_⟩
    simp [stress_set_mbind_token, stress_parse_node, hlo, hd, hhi, hne, hle]
  · rw [stress_set_mbind_loop, h]

/-- C6 witness: the malformed token "x" fails validation, and an error
token at the head of the loop exits with the accumulated calls
unchanged. -/
theorem set_mbind_bad_token_C6_witness :
    (∃ e, stress_set_mbind_token 8 ("x".data) = .error e) ∧
    (∃ e, stress_set_mbind_token 8 ("3-".data) = .error e) ∧
    (∃ e, stress_set_mbind_token 8 ("5-3".data) = .error e) :=
  ⟨set_mbind_bad_token_C6.1 8 "x".data (by decide),
   set_mbind_bad_token_C6.2.1 8 "3-".data (by decide),
   set_mbind_bad_token_C6.2.2.1 8 "5-3".data "3".data 5 3 (by decide)
     (by decide) (by decide) (by decide) (by decide)⟩

/-- C7: every mask returned by `stress_numa_mask_alloc` satisfies the
size invariants — `numa_elements = ceil(max_nodes / NUMA_LONG_BITS)`
(at least 1), `mask_size = numa_elements * NUMA_LONG_BITS / 8`, hence
`mask_size * 8 ≥ max_nodes` — and its bit buffer is zero-initialized;
on discovery failure (`nodes < 1` or `max_nodes < 1`) or on either
allocation failing, no (partial) object is returned. -/
theorem mask_alloc_invariants_C7 (numaLongBits : Nat) (fopenOk : Bool)
    (fileLines : List (List Char)) (mallocOk callocOk : Bool)
    (hwb : 0 < numaLongBits) (h8 : 8 ∣ numaLongBits) :
    (∀ numa_mask,
      stress_numa_mask_alloc numaLongBits fopenOk fileLines mallocOk callocOk
          = some numa_mask →
      numa_mask.numa_elements =
        (numa_mask.max_nodes + numaLongBits - 1) / numaLongBits ∧
      1 ≤ numa_mask.numa_elements ∧
      numa_mask.mask_size = numa_mask.numa_elements * numaLongBits / 8 ∧
      numa_mask.max_nodes ≤ numa_mask.mask_size * 8 ∧
      numa_mask.mask = 0) ∧
    ((toLong (stress_numa_count_mem_nodes fopenOk fileLines).1 < 1 ∨
      (stress_numa_count_mem_nodes fopenOk fileLines).2 < 1 ∨
      mallocOk = false ∨ callocOk = false) →
      stress_numa_mask_alloc numaLongBits fopenOk fileLines mallocOk callocOk
        = none) := by
  constructor
  · intro numa_mask hsome
    cases mallocOk with
    | false => simp [stress_numa_mask_alloc] at hsome
    | true =>
      cases callocOk with
      | false =>
        simp only [stress_numa_mask_alloc, if_true] at hsome
        split at hsome
        · exact Option.noConfusion hsome
        · simp at hsome
      | true =>
        simp only [stress_numa_mask_alloc, if_true] at hsome
        split at hsome
        · exact Option.noConfusion hsome
        · rename_i hguard
          simp only [if_true, Option.some.injEq] at hsome
          subst hsome
          have hmx : 1 ≤ (stress_numa_count_mem_nodes fopenOk fileLines).2 := by
            omega
          set mx := (stress_numa_count_mem_nodes fopenOk fileLines).2 with hmxdef
          have hne : 1 ≤ (mx + numaLongBits - 1) / numaLongBits := by
            rw [Nat.le_div_iff_mul_le hwb]
            omega
          have hne0 : ¬((mx + numaLongBits - 1) / numaLongBits = 0) := by omega
          have hdvd : 8 ∣ numaLongBits * ((mx + numaLongBits - 1) / numaLongBits) :=
            Dvd.dvd.mul_right h8 _
          have hdm := Nat.div_add_mod (mx + numaLongBits - 1) numaLongBits
          have hmod := Nat.mod_lt (mx + numaLongBits - 1) hwb
          refine ⟨?_, ?_, ?_, ?_, ?_⟩
          · dsimp only
            rw [if_neg hne0]
          · dsimp only
            rw [if_neg hne0]
            exact hne
          · dsimp only
            rw [if_neg hne0]
            simp only [BITS_PER_BYTE]
            rw [Nat.mul_comm]
          · dsimp only
            rw [if_neg hne0]
            simp only [BITS_PER_BYTE]
            rw [Nat.div_mul_cancel hdvd]
            omega
          · rfl
  · intro hfail
    rcases hfail with hf | hf | hf | hf
    · cases mallocOk with
      | false => simp [stress_numa_mask_alloc]
      | true =>
        simp only [stress_numa_mask_alloc, if_true]
        rw [if_pos (Or.inl hf)]
    · cases mallocOk with
      | false => simp [stress_numa_mask_alloc]
      | true =>
        simp only [stress_numa_mask_alloc, if_true]
        rw [if_pos (Or.inr hf)]
    · subst hf; simp [stress_numa_mask_alloc]
    · subst hf
      cases mallocOk with
      | false => simp [stress_numa_mask_alloc]
      | true =>
        simp only [stress_numa_mask_alloc, if_true]
        split
        · rfl
        · simp

/-- C7 witness: on a discovered 8-node mask with 64-bit words the
allocator yields the structure with one word, 8 mask bytes
(so `mask_size * 8 ≥ max_nodes`) and a cleared bit buffer. -/
theorem mask_alloc_invariants_C7_witness :
    (8 : Nat) ≤ (stress_numa_mask_t.mk 8 8 1 8 0).mask_size * 8 ∧
    (stress_numa_mask_t.mk 8 8 1 8 0).mask = 0 := by
  have h := (mask_alloc_invariants_C7 64 true [("Mems_allowed:\tff\n".data)]
    true true (by decide) (by decide)).1 ⟨8, 8, 1, 8, 0⟩ (by decide)
  exact ⟨h.2.2.2.1, h.2.2.2.2⟩

theorem nibbleCount_le (v : Nat) : nibbleCount v ≤ 4 := by
  rw [nibbleCount]
  split <;> split <;> split <;> split <;> omega

theorem popSum_le (ds : List Char) : popSum ds ≤ 4 * ds.length := by
  induction ds with
  | nil => simp [popSum]
  | cons c ds ih =>
    have := nibbleCount_le ((hexDigitVal c).getD 0)
    simp only [popSum, List.map_cons, List.sum_cons, List.length_cons] at *
    omega

theorem hexBits_eq (v : Nat) (n : Int) (id : Nat) :
    hexBits v n id id = (n + nibbleCount v, id + 4, id + 4) := by
  have h1 : id < id + 1 := by omega
  have h2 : id + 1 < id + 1 + 1 := by omega
  have h3 : id + 1 + 1 < id + 1 + 1 + 1 := by omega
  have h4 : id + 1 + 1 + 1 < id + 1 + 1 + 1 + 1 := by omega
  simp only [hexBits, List.foldl_cons, List.foldl_nil, if_pos h1]
  cases hv0 : v.testBit 0 <;> cases hv1 : v.testBit 1 <;>
    cases hv2 : v.testBit 2 <;> cases hv3 : v.testBit 3 <;>
    simp only [Bool.false_eq_true, if_false, if_true] <;>
    simp only [if_pos h2, if_pos h3, if_pos h4, nibbleCount, hv0, hv1, hv2,
      hv3, Bool.false_eq_true, if_false, if_true, Prod.mk.injEq] <;>
    exact ⟨by omega, trivial⟩

/-- The scanned region grows by the character at offset `pos + 1` when
that offset is inside the string. -/
theorem regionAt_succ (rest : List Char) (pos : Nat)
    (h : pos + 1 < rest.length) :
    regionAt rest (pos + 1) = rest.getD (pos + 1) ' ' :: regionAt rest pos := by
  rw [regionAt, regionAt, List.take_succ,
    List.getElem?_eq_getElem h, Option.toList_some,
    List.drop_append_of_le_length (by simp; omega), List.reverse_append,
    List.reverse_singleton, List.getD_eq_getElem?_getD,
    List.getElem?_eq_getElem h]
  rfl

theorem hexDigitVal_not_space {c : Char} (h : (hexDigitVal c).isSome) :
    isSpaceC c = false := by
  rw [isSpaceC, decide_eq_false_iff_not]
  rintro (rfl | rfl | rfl | rfl | rfl | rfl) <;> exact absurd h (by decide)

/-- Characterization of the backward scan over a valid region: when
every character of the region before the terminating space is a hex
digit or a comma, the scan (entered with `*max_node = node_id`) adds the
popcount of the scanned digits to `n` and 4 node slots per scanned
digit to `node_id`/`*max_node`. -/
theorem scanLoop_valid (rest : List Char) :
    ∀ (pos : Nat) (n : Int) (id : Nat), pos < rest.length →
    (∀ c ∈ (regionAt rest pos).takeWhile (fun c => c ≠ ' '),
      (hexDigitVal c).isSome ∨ c = ',') →
    scanLoop rest pos n id id =
      (n + popSum (digitsIn (regionAt rest pos)),
       id + 4 * (digitsIn (regionAt rest pos)).length) := by
  intro pos
  induction pos with
  | zero =>
    intro n id hpos hval
    have hreg : regionAt rest 0 = [] := by
      rw [regionAt, List.reverse_eq_nil_iff]
      exact List.drop_eq_nil_of_le (by simp)
    rw [hreg]
    simp [scanLoop, digitsIn, popSum]
  | succ pos ih =>
    intro n id hpos hval
    have hcons := regionAt_succ rest pos hpos
    rw [hcons] at hval ⊢
    by_cases hsp : rest.getD (pos + 1) ' ' = ' '
    · rw [hsp] at hval ⊢
      have hd : digitsIn (' ' :: regionAt rest pos) = [] := by
        simp [digitsIn]
      rw [hd]
      simp only [scanLoop, if_pos hsp, popSum, List.map_nil, List.sum_nil,
        List.length_nil]
      exact Prod.ext (by omega) (by omega)
    · have hval' : ∀ x ∈ (regionAt rest pos).takeWhile (fun c => c ≠ ' '),
          (hexDigitVal x).isSome ∨ x = ',' := by
        intro x hx
        apply hval
        rw [List.takeWhile_cons, if_pos (by simp only [ne_eq, decide_eq_true_eq]; exact hsp)]
        exact List.mem_cons_of_mem _ hx
      by_cases hcm : rest.getD (pos + 1) ' ' = ','
      · have hd : digitsIn (rest.getD (pos + 1) ' ' :: regionAt rest pos)
            = digitsIn (regionAt rest pos) := by
          rw [digitsIn, List.takeWhile_cons, if_pos (by simp only [ne_eq, decide_eq_true_eq]; exact hsp),
            List.filter_cons, if_neg (by simp only [ne_eq, decide_eq_true_eq, not_not]; exact hcm)]
          rfl
        rw [hd]
        simp only [scanLoop, if_neg hsp, if_pos hcm]
        exact ih n id (by omega) hval'
      · have hmem : rest.getD (pos + 1) ' ' ∈
            (rest.getD (pos + 1) ' ' :: regionAt rest pos).takeWhile
              (fun c => c ≠ ' ') := by
          rw [List.takeWhile_cons, if_pos (by simp only [ne_eq, decide_eq_true_eq]; exact hsp)]
          exact List.mem_cons_self _ _
        have hsome : (hexDigitVal (rest.getD (pos + 1) ' ')).isSome := by
          rcases hval _ hmem with h | h
          · exact h
          · exact absurd h hcm
        obtain ⟨v, hv⟩ := Option.isSome_iff_exists.mp hsome
        have hgetd : rest.getD (pos + 1) ' ' = rest.get ⟨pos + 1, hpos⟩ := by
          rw [List.getD_eq_getElem?_getD, List.getElem?_eq_getElem hpos]
          rfl
        have hdrop : rest.drop (pos + 1)
            = rest.getD (pos + 1) ' ' :: rest.drop (pos + 2) := by
          rw [List.drop_eq_getElem_cons hpos, hgetd]
          rfl
        have hscan : sscanf1x (rest.drop (pos + 1)) = some v := by
          rw [sscanf1x, hdrop, List.dropWhile_cons,
            hexDigitVal_not_space hsome]
          simp only [Bool.false_eq_true, if_false]
          exact hv
        have hd : digitsIn (rest.getD (pos + 1) ' ' :: regionAt rest pos)
            = rest.getD (pos + 1) ' ' :: digitsIn (regionAt rest pos) := by
          rw [digitsIn, List.takeWhile_cons, if_pos (by simp only [ne_eq, decide_eq_true_eq]; exact hsp),
            List.filter_cons, if_pos (by simp only [ne_eq, decide_eq_true_eq]; exact hcm)]
          rfl
        rw [hd]
        simp only [scanLoop, if_neg hsp, if_neg hcm, hscan, hexBits_eq]
        rw [ih (n + nibbleCount v) (id + 4) (by omega) hval']
        have hps : popSum (rest.getD (pos + 1) ' ' ::
            digitsIn (regionAt rest pos))
            = nibbleCount v + popSum (digitsIn (regionAt rest pos)) := by
          rw [popSum, List.map_cons, List.sum_cons, hv]
          rfl
        rw [hps, List.length_cons]
        exact Prod.ext (by push_cast; ring) (by omega)

/-- The full scan region (from the last character before the trailing
newline, backwards) is the region at start offset `rest.length - 2`. -/
theorem regionOf_eq (rest : List Char) :
    regionOf rest = regionAt rest (rest.length - 2) := by
  rcases Nat.lt_or_ge rest.length 2 with h | h
  · match rest, h with
    | [], _ => rfl
    | [c], _ => rfl
  · have e : rest.length - 2 + 1 = rest.length - 1 := by omega
    rw [regionOf, regionAt, e]

/-- C3: for every valid `Mems_allowed` hexadecimal bitmask line — the
backward-scanned region (the characters from the line's last pre-newline
character down to, but excluding, the character right after the label)
holds only hex digits and comma separators before any space — the node
counter returns the number of set bits among the scanned hex digits and
reports `max_node` equal to 4 times the number of hex digits scanned;
commas are skipped without consuming a node slot and scanning stops at a
space or at the start.  (`13 + rest.length ≤ 8191`: the line fits in the
8192-byte `fgets` buffer.) -/
theorem count_mem_nodes_hex_C3 (rest : List Char)
    (hlen : 13 + rest.length ≤ 8191)
    (hval : ∀ c ∈ (regionOf rest).takeWhile (fun c => c ≠ ' '),
      (hexDigitVal c).isSome ∨ c = ',') :
    stress_numa_count_mem_nodes true [memsLabel ++ rest] =
      (popSum (digitsIn (regionOf rest)),
       4 * (digitsIn (regionOf rest)).length) := by
  have hpre : memsLabel.isPrefixOf (memsLabel ++ rest) = true :=
    List.isPrefixOf_iff_prefix.mpr (List.prefix_append _ _)
  have hdrop : (memsLabel ++ rest).drop 13 = rest := by
    have h13 : (13 : Nat) = memsLabel.length := rfl
    rw [h13, List.drop_left]
  have hbound : popSum (digitsIn (regionOf rest)) < 2 ^ 64 := by
    have h1 := popSum_le (digitsIn (regionOf rest))
    have h2 : (digitsIn (regionOf rest)).length ≤ (regionOf rest).length := by
      rw [digitsIn]
      exact le_trans (List.length_filter_le _ _)
        (( List.takeWhile_prefix _).length_le)
    have h3 : (regionOf rest).length ≤ rest.length := by
      rw [regionOf, List.length_reverse, List.length_drop, List.length_take]
      omega
    omega
  rw [stress_numa_count_mem_nodes]
  simp only [if_true, List.find?_cons, hpre, hdrop]
  rcases Nat.eq_zero_or_pos rest.length with hz | hposl
  · have hnil : rest = [] := List.eq_nil_of_length_eq_zero hz
    subst hnil
    simp [scanLoop, regionOf, digitsIn, popSum, toULong]
  · have hval' : ∀ c ∈ (regionAt rest (rest.length - 2)).takeWhile
        (fun c => c ≠ ' '), (hexDigitVal c).isSome ∨ c = ',' := by
      rw [← regionOf_eq]
      exact hval
    have hsv := scanLoop_valid rest (rest.length - 2) 0 0 (by omega) hval'
    rw [← regionOf_eq] at hsv
    rw [hsv]
    refine Prod.ext ?_ (by omega)
    rw [toULong]
    omega

/-- Scan invariant: `n` never exceeds `*max_node` (entered with
`*max_node = node_id`). -/
theorem scanLoop_le (rest : List Char) :
    ∀ (pos : Nat) (n : Int) (id : Nat), n ≤ (id : Int) →
      (scanLoop rest pos n id id).1 ≤ ((scanLoop rest pos n id id).2 : Int) := by
  intro pos
  induction pos with
  | zero => intro n id h; exact h
  | succ pos ih =>
    intro n id h
    by_cases hsp : rest.getD (pos + 1) ' ' = ' '
    · simp only [scanLoop, if_pos hsp]
      exact h
    · by_cases hcm : rest.getD (pos + 1) ' ' = ','
      · simp only [scanLoop, if_neg hsp, if_pos hcm]
        exact ih n id h
      · rcases hscan : sscanf1x (rest.drop (pos + 1)) with _ | v
        · simp only [scanLoop, if_neg hsp, if_neg hcm, hscan]
          omega
        · simp only [scanLoop, if_neg hsp, if_neg hcm, hscan, hexBits_eq]
          refine ih _ _ ?_
          have := nibbleCount_le v
          push_cast
          omega

/-- Scan invariant: the result is either the `-1` failure marker or a
non-negative count. -/
theorem scanLoop_fst (rest : List Char) :
    ∀ (pos : Nat) (n : Int) (id : Nat), 0 ≤ n →
      (scanLoop rest pos n id id).1 = -1 ∨ 0 ≤ (scanLoop rest pos n id id).1
    := by
  intro pos
  induction pos with
  | zero => intro n id h; exact Or.inr h
  | succ pos ih =>
    intro n id h
    by_cases hsp : rest.getD (pos + 1) ' ' = ' '
    · simp only [scanLoop, if_pos hsp]
      exact Or.inr h
    · by_cases hcm : rest.getD (pos + 1) ' ' = ','
      · simp only [scanLoop, if_neg hsp, if_pos hcm]
        exact ih n id h
      · rcases hscan : sscanf1x (rest.drop (pos + 1)) with _ | v
        · simp only [scanLoop, if_neg hsp, if_neg hcm, hscan]
          exact Or.inl trivial
        · simp only [scanLoop, if_neg hsp, if_neg hcm, hscan, hexBits_eq]
          exact ih _ _ (by omega)

/-- Scan invariant: `*max_node` grows by at most 4 node slots per
scanned position. -/
theorem scanLoop_snd_le (rest : List Char) :
    ∀ (pos : Nat) (n : Int) (id : Nat),
      (scanLoop rest pos n id id).2 ≤ id + 4 * pos := by
  intro pos
  induction pos with
  | zero => intro n id; simp [scanLoop]
  | succ pos ih =>
    intro n id
    by_cases hsp : rest.getD (pos + 1) ' ' = ' '
    · simp only [scanLoop, if_pos hsp]
      omega
    · by_cases hcm : rest.getD (pos + 1) ' ' = ','
      · simp only [scanLoop, if_neg hsp, if_pos hcm]
        have := ih n id
        omega
      · rcases hscan : sscanf1x (rest.drop (pos + 1)) with _ | v
        · simp only [scanLoop, if_neg hsp, if_neg hcm, hscan]
          omega
        · simp only [scanLoop, if_neg hsp, if_neg hcm, hscan, hexBits_eq]
          have := ih (n + nibbleCount v) (id + 4)
          omega

theorem toLong_toULong (i : Int) (h0 : 0 ≤ i) (h1 : i < 2 ^ 63) :
    toLong (toULong i) = i := by
  rw [toULong, toLong]
  split <;> omega

theorem toLong_toULong_neg_one : toLong (toULong (-1)) = -1 := by
  rw [toULong, toLong]
  split <;> omega

/-- Trichotomy of the node counter's unsigned result over a status file
whose lines fit the 8192-byte `fgets` buffer: `max_node` is at most
`4 × 8191` and the returned value either converts to the signed failure
marker `-1` or is an exact count not exceeding `max_node`. -/
theorem counter_cases (fopenOk : Bool) (fileLines : List (List Char))
    (hlines : ∀ l ∈ fileLines, l.length ≤ 8191) :
    (stress_numa_count_mem_nodes fopenOk fileLines).2 ≤ 32764 ∧
    (toLong (stress_numa_count_mem_nodes fopenOk fileLines).1 = -1 ∨
     ((stress_numa_count_mem_nodes fopenOk fileLines).1
        ≤ (stress_numa_count_mem_nodes fopenOk fileLines).2 ∧
      toLong (stress_numa_count_mem_nodes fopenOk fileLines).1 =
        ((stress_numa_count_mem_nodes fopenOk fileLines).1 : Int))) := by
  cases fopenOk with
  | false =>
    have hres : stress_numa_count_mem_nodes false fileLines
        = (toULong (-1), 0) := by
      simp [stress_numa_count_mem_nodes]
    rw [hres]
    exact ⟨by omega, Or.inl toLong_toULong_neg_one⟩
  | true =>
    rcases hfind : fileLines.find? (fun l => memsLabel.isPrefixOf l)
      with _ | buf
    · have hres : stress_numa_count_mem_nodes true fileLines
          = (toULong (-1), 0) := by
        simp [stress_numa_count_mem_nodes, hfind]
      rw [hres]
      exact ⟨by omega, Or.inl toLong_toULong_neg_one⟩
    · have hbuf : buf ∈ fileLines := List.mem_of_find?_eq_some hfind
      have hblen : buf.length ≤ 8191 := hlines buf hbuf
      have hrlen : (buf.drop 13).length ≤ 8191 := by
        rw [List.length_drop]
        omega
      have hres : stress_numa_count_mem_nodes true fileLines =
          (toULong (scanLoop (buf.drop 13) ((buf.drop 13).length - 2)
            0 0 0).1,
           (scanLoop (buf.drop 13) ((buf.drop 13).length - 2) 0 0 0).2) := by
        simp [stress_numa_count_mem_nodes, hfind]
      rw [hres]
      have hsnd := scanLoop_snd_le (buf.drop 13)
        ((buf.drop 13).length - 2) 0 0
      refine ⟨by omega, ?_⟩
      rcases scanLoop_fst (buf.drop 13) ((buf.drop 13).length - 2) 0 0
        (by omega) with hneg | hnn
      · left
        rw [hneg]
        exact toLong_toULong_neg_one
      · right
        have hle := scanLoop_le (buf.drop 13) ((buf.drop 13).length - 2) 0 0
          (by omega)
        have hup : (scanLoop (buf.drop 13) ((buf.drop 13).length - 2)
            0 0 0).1 < 2 ^ 63 := by omega
        constructor
        · rw [toULong]
          omega
        · rw [toLong_toULong _ hnn hup, toULong]
          omega

/-- Inversion of a successful `stress_numa_mask_alloc`: the `nodes` and
`max_nodes` fields come from the node counter and passed the `≥ 1`
guard. -/
theorem mask_alloc_some_inv {numaLongBits : Nat} {fopenOk : Bool}
    {fileLines : List (List Char)} {mallocOk callocOk : Bool}
    {numa_mask : stress_numa_mask_t}
    (hsome : stress_numa_mask_alloc numaLongBits fopenOk fileLines mallocOk
      callocOk = some numa_mask) :
    numa_mask.nodes = toLong (stress_numa_count_mem_nodes fopenOk fileLines).1
      ∧
    numa_mask.max_nodes = (stress_numa_count_mem_nodes fopenOk fileLines).2 ∧
    1 ≤ numa_mask.nodes ∧ 1 ≤ numa_mask.max_nodes := by
  cases mallocOk with
  | false => simp [stress_numa_mask_alloc] at hsome
  | true =>
    cases callocOk with
    | false =>
      simp only [stress_numa_mask_alloc, if_true] at hsome
      split at hsome
      · exact Option.noConfusion hsome
      · simp at hsome
    | true =>
      simp only [stress_numa_mask_alloc, if_true] at hsome
      split at hsome
      · exact Option.noConfusion hsome
      · rename_i hguard
        simp only [if_true, Option.some.injEq] at hsome
        subst hsome
        push_neg at hguard
        refine ⟨rfl, rfl, ?_, ?_⟩ <;> dsimp only <;> omega

/-- C9: for every run of the scan that completes (result not the `-1`
marker, which is the only negative value), the permitted-node count
never exceeds the reported `max_node` — at most one bit is counted per
4-bit node slot; consequently every mask produced by
`stress_numa_mask_alloc` (over a status file whose lines fit the `fgets`
buffer) has `nodes ≤ max_nodes`, so a node index drawn by the
randomized binder via `stress_mwc32modn` over `nodes` is always
`< max_nodes`. -/
theorem count_le_max_node_C9 :
    (∀ (rest : List Char) (pos : Nat),
      (scanLoop rest pos 0 0 0).1 ≤ ((scanLoop rest pos 0 0 0).2 : Int)) ∧
    (∀ (numaLongBits : Nat) (fopenOk : Bool) (fileLines : List (List Char))
      (mallocOk callocOk : Bool) (numa_mask : stress_numa_mask_t),
      (∀ l ∈ fileLines, l.length ≤ 8191) →
      stress_numa_mask_alloc numaLongBits fopenOk fileLines mallocOk callocOk
        = some numa_mask →
      numa_mask.nodes.toNat ≤ numa_mask.max_nodes ∧
      (∀ (seq : Nat → Nat) (i : Nat),
        stress_mwc32modn (seq i) ((numa_mask.nodes % (2 ^ 32 : Int)).toNat)
          < numa_mask.max_nodes)) := by
  constructor
  · intro rest pos
    exact scanLoop_le rest pos 0 0 (by omega)
  · intro numaLongBits fopenOk fileLines mallocOk callocOk numa_mask hlines
      hsome
    obtain ⟨hn, hm, h1, hm1⟩ := mask_alloc_some_inv hsome
    have hc := counter_cases fopenOk fileLines hlines
    rcases hc.2 with hfail | ⟨hle, hid⟩
    · rw [hfail] at hn
      omega
    · have hnodes : numa_mask.nodes =
          ((stress_numa_count_mem_nodes fopenOk fileLines).1 : Int) := by
        rw [hn, hid]
      have hsnd := hc.1
      constructor
      · rw [hm]
        omega
      · intro seq i
        have hemod : numa_mask.nodes % (2 ^ 32 : Int) = numa_mask.nodes :=
          Int.emod_eq_of_lt (by omega) (by omega)
        rw [hemod, stress_mwc32modn, hm]
        have htn : numa_mask.nodes.toNat =
            (stress_numa_count_mem_nodes fopenOk fileLines).1 := by omega
        rw [htn]
        exact lt_of_lt_of_le (Nat.mod_lt _ (by omega)) hle

/-- C9 witness: on the concrete 8-node status file the allocated mask
has `nodes.toNat = 8 ≤ 8 = max_nodes`. -/
theorem count_le_max_node_C9_witness :
    (stress_numa_mask_t.mk 8 8 1 8 0).nodes.toNat ≤
      (stress_numa_mask_t.mk 8 8 1 8 0).max_nodes :=
  (count_le_max_node_C9.2 64 true [("Mems_allowed:\tff\n".data)] true true
    ⟨8, 8, 1, 8, 0⟩ (by decide) (by decide)).1

/-- C3 witness: the concrete line `Mems_allowed:\tff` is scanned to 8
set bits over 2 hex digits (`max_node = 8`). -/
theorem count_mem_nodes_hex_C3_witness :
    stress_numa_count_mem_nodes true [memsLabel ++ ("\tff\n".data)] =
      (popSum (digitsIn (regionOf ("\tff\n".data))),
       4 * (digitsIn (regionOf ("\tff\n".data))).length) :=
  count_mem_nodes_hex_C3 ("\tff\n".data) (by decide) (by decide)

theorem bindRange_eq (count : Nat) :
    ∀ (nodemask lo : Nat), bindRange nodemask lo count =
      (setAll nodemask (List.range' lo count),
       cumCalls nodemask (List.range' lo count)) := by
  induction count with
  | zero => intro nodemask lo; rfl
  | succ count ih =>
    intro nodemask lo
    rw [List.range'_succ]
    simp only [bindRange, ih, setAll, List.foldl_cons, cumCalls]

theorem cumCalls_append (is js : List Nat) :
    ∀ nodemask, cumCalls nodemask (is ++ js) =
      cumCalls nodemask is ++ cumCalls (setAll nodemask is) js := by
  induction is with
  | nil => intro nodemask; rfl
  | cons i is ih =>
    intro nodemask
    show cumCalls nodemask (i :: (is ++ js)) =
      cumCalls nodemask (i :: is) ++ cumCalls (setAll nodemask (i :: is)) js
    rw [cumCalls, cumCalls, ih]
    simp [setAll, List.cons_append]

theorem cumCalls_length (nodemask : Nat) (is : List Nat) :
    (cumCalls nodemask is).length = is.length := by
  induction is generalizing nodemask with
  | nil => rfl
  | cons i is ih => simp [cumCalls, ih]

theorem cumCalls_get (is : List Nat) :
    ∀ (nodemask k : Nat) (hk : k < (cumCalls nodemask is).length),
      (cumCalls nodemask is).get ⟨k, hk⟩ =
        setAll nodemask (is.take (k + 1)) := by
  induction is with
  | nil => intro nodemask k hk; simp [cumCalls] at hk
  | cons i is ih =>
    intro nodemask k hk
    cases k with
    | zero =>
      simp only [cumCalls, List.get_eq_getElem, List.getElem_cons_zero,
        List.take_succ_cons, List.take_zero, setAll, List.foldl_cons,
        List.foldl_nil]
    | succ k =>
      simp only [cumCalls, List.get_eq_getElem, List.getElem_cons_succ,
        List.take_succ_cons, setAll, List.foldl_cons]
      have hk2 : k < (cumCalls (STRESS_SETBIT nodemask i) is).length := by
        simp only [cumCalls, List.length_cons] at hk
        omega
      have := ih (STRESS_SETBIT nodemask i) k hk2
      simp only [List.get_eq_getElem, setAll] at this
      exact this

theorem testBit_setAll (is : List Nat) :
    ∀ (nodemask b : Nat),
      (setAll nodemask is).testBit b ↔ nodemask.testBit b ∨ b ∈ is := by
  induction is with
  | nil => intro nodemask b; simp [setAll]
  | cons i is ih =>
    intro nodemask b
    rw [setAll, List.foldl_cons]
    have hih := ih (STRESS_SETBIT nodemask i) b
    rw [setAll] at hih
    rw [hih, STRESS_SETBIT, Nat.one_shiftLeft, Nat.testBit_lor,
      Nat.testBit_two_pow]
    simp only [List.mem_cons, Bool.or_eq_true, decide_eq_true_eq]
    constructor
    · rintro ((h | h) | h)
      · exact Or.inl h
      · exact Or.inr (Or.inl h.symm)
      · exact Or.inr (Or.inr h)
    · rintro (h | h | h)
      · exact Or.inl (Or.inl h)
      · exact Or.inl (Or.inr h.symm)
      · exact Or.inr h

/-- The token loop on a fully validated token list returns success and
appends the cumulative call masks of all indices, the nodemask being
carried across tokens. -/
theorem set_mbind_loop_ok (max_node : Nat) :
    ∀ (toks : List (List Char)) (nodemask : Nat) (calls : List Nat),
      (∀ t ∈ toks, ∃ lohi, stress_set_mbind_token max_node t = .ok lohi) →
      stress_set_mbind_loop max_node toks nodemask calls =
        .success false
          (calls ++ cumCalls nodemask (specIndices max_node toks)) := by
  intro toks
  induction toks with
  | nil =>
    intro nodemask calls h
    simp [stress_set_mbind_loop, specIndices, cumCalls]
  | cons t toks ih =>
    intro nodemask calls h
    obtain ⟨lohi, ht⟩ := h t (List.mem_cons_self _ _)
    have hrest : ∀ x ∈ toks, ∃ l, stress_set_mbind_token max_node x = .ok l :=
      fun x hx => h x (List.mem_cons_of_mem _ hx)
    have hspec : specIndices max_node (t :: toks) =
        rangeIndices lohi ++ specIndices max_node toks := by
      rw [specIndices, List.flatMap_cons, ht]
      rfl
    simp only [stress_set_mbind_loop, ht]
    rw [bindRange_eq, ih _ _ hrest, hspec, cumCalls_append,
      List.append_assoc]
    rfl

/-- C2: for every well-formed, in-range `--mbind` specification the
binding calls are cumulative: the call list is exactly the cumulative
mask sequence of the traversal-order index list, so the `k`-th
`set_mempolicy` call carries a mask whose set bits are exactly the first
`k+1` indices, and the mask is never cleared between indices or tokens;
for "2-4" with discovered `max_node = 8` three successive calls carry
the node sets {2}, {2,3}, {2,3,4}. -/
theorem set_mbind_cumulative_C2 (fopenOk : Bool)
    (fileLines : List (List Char)) (arg : String)
    (hn : 1 ≤ (stress_numa_count_mem_nodes fopenOk fileLines).1)
    (htoks : ∀ t ∈ tokenizeMbind arg, ∃ lohi,
      stress_set_mbind_token
        (stress_numa_count_mem_nodes fopenOk fileLines).2 t = .ok lohi) :
    stress_set_mbind fopenOk fileLines arg = .success false
      (cumCalls 0 (specIndices
        (stress_numa_count_mem_nodes fopenOk fileLines).2
        (tokenizeMbind arg))) ∧
    (cumCalls 0 (specIndices (stress_numa_count_mem_nodes fopenOk
        fileLines).2 (tokenizeMbind arg))).length =
      (specIndices (stress_numa_count_mem_nodes fopenOk fileLines).2
        (tokenizeMbind arg)).length ∧
    (∀ (k : Nat) (hk : k < (cumCalls 0 (specIndices
        (stress_numa_count_mem_nodes fopenOk fileLines).2
        (tokenizeMbind arg))).length) (b : Nat),
      ((cumCalls 0 (specIndices
        (stress_numa_count_mem_nodes fopenOk fileLines).2
        (tokenizeMbind arg))).get ⟨k, hk⟩).testBit b ↔
        b ∈ (specIndices (stress_numa_count_mem_nodes fopenOk fileLines).2
          (tokenizeMbind arg)).take (k + 1)) ∧
    stress_set_mbind true [("Mems_allowed:\tff\n".data)] "2-4" =
      .success false [4, 12, 28] := by
  refine ⟨?_, cumCalls_length _ _, ?_, by decide⟩
  · rw [stress_set_mbind, if_neg (by omega)]
    simpa using set_mbind_loop_ok
      (stress_numa_count_mem_nodes fopenOk fileLines).2
      (tokenizeMbind arg) 0 [] htoks
  · intro k hk b
    rw [cumCalls_get _ _ _ hk, testBit_setAll]
    simp [Nat.zero_testBit]

/-- C2 witness: the concrete specification "2-4" over the 8-node status
file runs the cumulative call sequence. -/
theorem set_mbind_cumulative_C2_witness :
    stress_set_mbind true [("Mems_allowed:\tff\n".data)] "2-4" =
      .success false (cumCalls 0 (specIndices
        (stress_numa_count_mem_nodes true
          [("Mems_allowed:\tff\n".data)]).2
        (tokenizeMbind "2-4"))) := by
  refine (set_mbind_cumulative_C2 true [("Mems_allowed:\tff\n".data)] "2-4"
    (by decide) ?_).1
  intro t ht
  have he : tokenizeMbind "2-4" = [("2-4".data)] := by decide
  rw [he, List.mem_singleton] at ht
  subst ht
  exact ⟨(2, 4), rfl⟩

end StressNuma
